import Mathlib

/-!
Shallow embedding of the sliver fixed-point angle library.

The Rust crate stores an angle as a 64-bit fixed-point fraction of one full
rotation and evaluates sine with a 256-entry lookup table plus a first-order
correction.  We model every u64 as a natural number, with reductions modulo
2 ^ 64 written out exactly where the Rust code casts or wraps, and every f64
as its raw IEEE-754 bit pattern (also a natural number below 2 ^ 64).  The
code only ever manipulates floats through their bit patterns, so this
embedding is exact.  A separate rational-valued semantics of bit patterns
gives meaning to statements such as the result being exactly 1.0.

Rust shifts by 64 or more bits are an arithmetic-overflow panic in debug
builds (and a masked shift in release builds); operations that can panic
are modelled with Option or an explicit panic constructor.
-/

namespace Sliver

/-! ## IEEE-754 double-precision bit patterns (the f64 side of repr.rs) -/

/-- The exponent field of an f64 bit pattern: bits 52 to 62. -/
def expBits (bits : Nat) : Nat := bits / 2 ^ 52 % 2 ^ 11

/-- The raw mantissa field of an f64 bit pattern: the low 52 bits. -/
def mantissaBits (bits : Nat) : Nat := bits % 2 ^ 52

/-- The sign bit of an f64 bit pattern: bit 63. -/
def signBit (bits : Nat) : Bool := bits / 2 ^ 63 % 2 = 1

/-- Classification of an f64, as in core::num::FpCategory. -/
inductive FpCategory where
| zero
| subnormal
| normal
| infinite
| nan
deriving DecidableEq

/-- f64::classify, computed from the bit pattern exactly as IEEE-754
defines it: exponent field 0 means zero or subnormal, exponent field
0x7FF means infinite or NaN, anything else is normal. -/
def classify (bits : Nat) : FpCategory :=
if expBits bits = 0 then
  if mantissaBits bits = 0 then .zero else .subnormal
else if expBits bits = 0x7FF then
  if mantissaBits bits = 0 then .infinite else .nan
else .normal

/-- Rational value of a finite f64 bit pattern (junk on NaN and infinity,
which the code never produces).  A subnormal pattern denotes
m * 2 ^ (-1074); a normal pattern denotes (2 ^ 52 + m) * 2 ^ (e - 1075). -/
def floatVal (bits : Nat) : ℚ :=
(if signBit bits then (-1 : ℚ) else 1) *
  (if expBits bits = 0 then (mantissaBits bits : ℚ) * (2 : ℚ) ^ (-1074 : ℤ)
   else ((2 ^ 52 + mantissaBits bits : ℕ) : ℚ) * (2 : ℚ) ^ ((expBits bits : ℤ) - 1075))

/-! ## sign.rs -/

/-- Two-valued polarity (sign.rs). -/
inductive Sign where
| Positive
| Negative
deriving DecidableEq

/-- Sign::from_bit. -/
def Sign.from_bit (bit : Bool) : Sign :=
match bit with
| false => .Positive
| true => .Negative

/-! ## repr.rs: the fixed-point representation -/

/-- The value of the exponent bits equivalent to 2 ^ 0 (repr.rs). -/
def FLOAT_ZERO_EXP : Int := 0x03FF

/-- BaseRepr O (repr.rs): a u64 word, semantically bits / 2 ^ 64 * 2 ^ O.
The u64 is modelled as a natural number below 2 ^ 64. -/
structure BaseRepr (O : Int) where
bits : Nat
deriving DecidableEq

/-- BaseRepr::new. -/
def BaseRepr.new (O : Int) (repr : Nat) : BaseRepr O := ⟨repr⟩

/-- Result of BaseRepr::from_float: the Rust function returns
Option, and its shift expressions panic in debug builds when the shift
distance reaches 64 (release builds mask the distance instead). -/
inductive ConvResult (O : Int) where
| noneResult
| panic
| ok (r : BaseRepr O)
deriving DecidableEq

/-- A u64 shift right by a possibly too large amount, with Rust debug
overflow semantics: shift distances of 64 or more panic. -/
def shrChecked (x n : Nat) : Option Nat :=
if n < 64 then some (x >>> n) else Option.none

/-- A u64 shift left with Rust debug overflow semantics; a legal shift
still drops the bits pushed past bit 63, hence the reduction mod 2 ^ 64. -/
def shlChecked (x n : Nat) : Option Nat :=
if n < 64 then some (x <<< n % 2 ^ 64) else Option.none

/-- BaseRepr::from_float (repr.rs).  Zero maps to bit pattern 0; NaN,
infinite and subnormal inputs are refused; a normal input has its 53-bit
mantissa (implicit leading one restored) shifted by
exponent + 12 - O positions, and a negative input is then negated in
twos complement.  The shift panics when the distance reaches 64. -/
def BaseRepr.from_float (O : Int) (value : Nat) : ConvResult O :=
match classify value with
| .zero => .ok ⟨0⟩
| .nan | .infinite | .subnormal => .noneResult
| .normal =>
  let mantissa : Nat := mantissaBits value ||| 2 ^ 52
  let exponent : Int := (expBits value : Int) - FLOAT_ZERO_EXP
  let shift_distance : Int := exponent + 12 - O
  let shifted : Option Nat :=
    if shift_distance < 0 then shrChecked mantissa shift_distance.natAbs
    else shlChecked mantissa shift_distance.toNat
  match shifted with
  | Option.none => .panic
  | some fixed_point_repr =>
    .ok ⟨if signBit value then (2 ^ 64 - fixed_point_repr) % 2 ^ 64
         else fixed_point_repr⟩

/-- BaseRepr::mul (repr.rs): widened 128-bit product shifted right 64
bits; the closing cast to u64 is the reduction mod 2 ^ 64. -/
def BaseRepr.mul {O : Int} (a : BaseRepr O) (other : BaseRepr 0) : BaseRepr O :=
⟨a.bits * other.bits / 2 ^ 64 % 2 ^ 64⟩

/-- BaseRepr::mul0 (repr.rs): widened product shifted right 64 - O bits,
returned at offset 0. -/
def BaseRepr.mul0 {O : Int} (a : BaseRepr O) (other : BaseRepr 0) : BaseRepr 0 :=
⟨a.bits * other.bits / 2 ^ (64 - O).toNat % 2 ^ 64⟩

/-- BaseRepr::saturating_add (repr.rs), with u64::saturating_add
semantics: the sum if it fits, otherwise u64::MAX. -/
def BaseRepr.saturating_add {O : Int} (a rhs : BaseRepr O) : BaseRepr O :=
⟨if a.bits + rhs.bits ≤ 2 ^ 64 - 1 then a.bits + rhs.bits else 2 ^ 64 - 1⟩

/-- u64::wrapping_add, used on the raw pattern in Angle::cos: addition
reduced mod 2 ^ 64. -/
def wrapping_add (a b : Nat) : Nat := (a + b) % 2 ^ 64

/-- Floor of the base-2 logarithm of a u64 word, written as a fold over
the 64 candidate bit positions so that it reduces structurally: the
largest i below 64 with 2 ^ i ≤ x (and 0 for x = 0). -/
def floorLog2 (x : Nat) : Nat :=
(List.range 64).foldl (fun acc i => if 2 ^ i ≤ x then i else acc) 0

/-- BaseRepr::as_float (repr.rs), producing the f64 bit pattern.  The
index of the first set bit of the word in most-significant-first order
(one_idx, the leading-zero count, 63 - floorLog2 for a nonzero u64)
fixes the exponent; the next min 52 (63 - one_idx) bits are loaded and
stored into the low bits of the mantissa field. -/
def BaseRepr.as_float {O : Int} (a : BaseRepr O) : Nat :=
if a.bits = 0 then 0
else
  let one_idx : Nat := 63 - floorLog2 a.bits
  let width : Nat := min 52 (63 - one_idx)
  let mantissa : Nat := a.bits / 2 ^ (63 - one_idx - width) % 2 ^ width
  let biased_exponent : Int := FLOAT_ZERO_EXP + (O - 1 - (one_idx : Int))
  mantissa % 2 ^ 52 + biased_exponent.toNat % 2 ^ 11 * 2 ^ 52

/-! ## consts.rs -/

/-- The value of TAU as a BaseRepr 3 (consts.rs): tau shifted left to
fill a u64, the top 3 bits being the integer component.  The source
writes the literal in binary grouped as
110 0 1001 0000 1111 1101 1010 1010 0010 0010 0001 0110 1000 1100 0010
0011 0100, which is this hexadecimal value. -/
def TAU : BaseRepr 3 := ⟨0xC90FDAA22168C234⟩

/-- Modelled from the spec: the DEGREES constant (declared in the missing
consts revision and used by Angle::as_degrees) is "the ratio 360
(degrees-per-rotation)" stored as a fixed-point literal "at offset O=9
(360 needs 9 integer bits)".  360 is an exact binary number, so the
literal is 360 * 2 ^ 55, the unique BaseRepr 9 encoding of 360. -/
def DEGREES : BaseRepr 9 := ⟨360 * 2 ^ 55⟩

/-! ## trig.rs: the sine evaluator

The 256-entry table CURVE lives in the module table.rs, which the spec
treats as "a static, externally generated array of 256 fixed-point sine
values ... treated as a read-only constant" whose generation is excluded
from the core.  Its contents are not part of the sources, so the
evaluator is parameterized by the table, a list of u64 words; every
claim below holds for an arbitrary table (of length 256 where bounds
matter).  Table indexing CURVE[i] is modelled with List.get?, whose
Option.none outcome is the out-of-bounds panic. -/

/-- Signed or sentinel magnitude of a sine evaluation (trig.rs). -/
inductive Output where
| One
| Fraction (r : BaseRepr 0)
deriving DecidableEq

/-- A sign paired with a magnitude (trig.rs). -/
structure SignedOutput where
sign : Sign
value : Output
deriving DecidableEq

/-- IEEE-754 negation of an f64 bit pattern: flip bit 63, written
arithmetically. -/
def negFloat (bits : Nat) : Nat :=
if bits < 2 ^ 63 then bits + 2 ^ 63 else bits - 2 ^ 63

/-- SignedOutput::as_float (trig.rs), at the bit-pattern level: the
magnitude is the pattern of 1.0 or the BaseRepr conversion, and Rust
float negation flips the sign bit of the pattern. -/
def SignedOutput.as_float (s : SignedOutput) : Nat :=
let unsigned : Nat :=
  match s.value with
  | .One => 0x3FF0000000000000
  | .Fraction repr => repr.as_float
match s.sign with
| .Positive => unsigned
| .Negative => negFloat unsigned

/-- u64 (or u16) subtraction with Rust debug semantics: underflow
panics. -/
def subChecked (a b : Nat) : Option Nat :=
if b ≤ a then some (a - b) else Option.none

/-- sin_exact (trig.rs): CURVE[repr as usize] for a u8 index. -/
def sin_exact (curve : List Nat) (repr : Nat) : Option (BaseRepr 0) :=
(curve.get? repr).map (BaseRepr.new 0)

/-- quarter_sin (trig.rs).  The zone is the 8-bit load of Msb0 bits
2..10, the epsilon the load of bits 10..64; zone 0 degenerates to the
radians-scaled epsilon, and otherwise the table value at the zone is
saturatingly corrected by epsilon times the mirrored cosine entry at
0x100 - zone (a u16 subtraction, then a cast to u8, modelled mod 256). -/
def quarter_sin (curve : List Nat) (repr : Nat) : Option (BaseRepr 0) :=
let zone : Nat := repr / 2 ^ 54 % 2 ^ 8
let epsilon : BaseRepr 0 := ⟨repr % 2 ^ 54⟩
let epsilon_radians := TAU.mul0 epsilon
if zone = 0 then some epsilon_radians
else
  match sin_exact curve (zone % 2 ^ 8) with
  | Option.none => Option.none
  | some sin_a =>
    match subChecked 0x100 zone with
    | Option.none => Option.none
    | some mirrored =>
      match sin_exact curve (mirrored % 2 ^ 8) with
      | Option.none => Option.none
      | some cos_a =>
        let b_cos_a := cos_a.mul epsilon_radians
        some (sin_a.saturating_add b_cos_a)

/-- half_sin (trig.rs).  The input is first masked to its low 63 bits
(the Msb0 load of bits 1..64); a value below the quarter pattern 2 ^ 62
goes to quarter_sin directly, the quarter pattern itself is the sentinel
One, and a larger value is reflected through half - repr (a u64
subtraction) before quarter_sin.  The three branches of the source
match on Ord::cmp are written as two nested ifs. -/
def half_sin (curve : List Nat) (repr : Nat) : Option Output :=
let repr : Nat := repr % 2 ^ 63
let half : Nat := 2 ^ 63
let quarter : Nat := 2 ^ 62
if repr < quarter then (quarter_sin curve repr).map .Fraction
else if repr = quarter then some .One
else
  match subChecked half repr with
  | Option.none => Option.none
  | some reflected => (quarter_sin curve reflected).map .Fraction

/-- sin (trig.rs): the sign is the most significant bit of the raw
pattern, the magnitude is half_sin of the pattern. -/
def sin (curve : List Nat) (repr : Nat) : Option SignedOutput :=
let sign := Sign.from_bit (repr / 2 ^ 63 % 2 = 1)
(half_sin curve repr).map fun value => ⟨sign, value⟩

/-! ## angle.rs -/

/-- Angle (angle.rs): a transparent wrapper over BaseRepr 0. -/
structure Angle where
inner : BaseRepr 0
deriving DecidableEq

/-- Angle::from_repr. -/
def Angle.from_repr (repr : Nat) : Angle := ⟨BaseRepr.new 0 repr⟩

/-- Angle::repr. -/
def Angle.repr (a : Angle) : Nat := a.inner.bits

/-- Angle::from_rotations: Repr::from_float(rotations).map(Self). -/
def Angle.from_rotations (rotations : Nat) : ConvResult 0 :=
BaseRepr.from_float 0 rotations

/-- Angle::as_rotations. -/
def Angle.as_rotations (a : Angle) : Nat := a.inner.as_float

/-- Angle::as_radians: TAU.mul(self.0).as_float(). -/
def Angle.as_radians (a : Angle) : Nat := (TAU.mul a.inner).as_float

/-- Angle::as_degrees: DEGREES.mul(self.0).as_float(). -/
def Angle.as_degrees (a : Angle) : Nat := (DEGREES.mul a.inner).as_float

/-- Angle::sin: trig::sin(self.repr()).as_float(), parameterized by the
table and returning the f64 bit pattern (Option.none is a table panic). -/
def Angle.sin (curve : List Nat) (a : Angle) : Option Nat :=
(Sliver.sin curve a.repr).map SignedOutput.as_float

/-- Angle::cos: trig::sin(self.repr().wrapping_add(quarter)).as_float(),
where quarter is the pattern 2 ^ 62. -/
def Angle.cos (curve : List Nat) (a : Angle) : Option Nat :=
(Sliver.sin curve (wrapping_add a.repr (2 ^ 62))).map SignedOutput.as_float

/-! ## Theorems about the claims -/

/-- C1.  The claim says construction from a float never crashes, for
every f64 input, even when the computed shift distance exceeds 63 bits.
The code contradicts this (and its own doc comment, which promises
modular truncation for out-of-range finite values): at the normal finite
input 2 ^ 1000 (bit pattern 0x7E70000000000000) the shift distance is
1012, so the mantissa shift panics in debug builds (release builds mask
the distance, producing a value other than the modular wrap, which would
be 0). -/
theorem from_float_shift_panics_on_large_normal_input :
    classify 0x7E70000000000000 = .normal ∧
    floatVal 0x7E70000000000000 = 2 ^ 1000 ∧
    BaseRepr.from_float 0 0x7E70000000000000 = ConvResult.panic := by
  refine ⟨by decide, ?_, by decide⟩
  norm_num [floatVal, signBit, expBits, mantissaBits]

/-- C2.  The claim says every normal finite input yields Some.  The code
contradicts this: the normal input 2 ^ (-76) (bit pattern
0x3B30000000000000) produces shift distance -64, and the right shift by
64 panics in debug builds instead of truncating to Some 0. -/
theorem from_float_shift_panics_on_small_normal_input :
    classify 0x3B30000000000000 = .normal ∧
    floatVal 0x3B30000000000000 = (2 : ℚ) ^ (-76 : ℤ) ∧
    BaseRepr.from_float 0 0x3B30000000000000 = ConvResult.panic := by
  refine ⟨by decide, ?_, by decide⟩
  norm_num [floatVal, signBit, expBits, mantissaBits]

/-- The part of the error contract that does hold: from_float returns
the absent result exactly on NaN, infinite and subnormal inputs; every
other input produces a value or, for extreme normal inputs, the shift
panic. -/
theorem from_float_noneResult_iff {O : Int} (v : Nat) :
    BaseRepr.from_float O v = ConvResult.noneResult ↔
      classify v = .nan ∨ classify v = .infinite ∨ classify v = .subnormal := by
  unfold BaseRepr.from_float
  cases h : classify v
  · simp [h]
  · simp [h]
  · simp only [h]
    constructor
    · intro hc
      split at hc <;> cases hc
    · intro hc
      rcases hc with hc | hc | hc <;> cases hc
  · simp [h]
  · simp [h]

/-- C5.  Modular wraparound of out-of-range constructions: 1.5 (bits
0x3FF8000000000000) and 0.5 (bits 0x3FE0000000000000) both construct the
pattern 0x8000000000000000, and -0.25 (bits 0xBFD0000000000000) and 0.75
(bits 0x3FE8000000000000) both construct 0xC000000000000000. -/
theorem from_float_wraps_modularly :
    BaseRepr.from_float 0 0x3FF8000000000000 = .ok ⟨0x8000000000000000⟩ ∧
    BaseRepr.from_float 0 0x3FE0000000000000 = .ok ⟨0x8000000000000000⟩ ∧
    BaseRepr.from_float 0 0xBFD0000000000000 = .ok ⟨0xC000000000000000⟩ ∧
    BaseRepr.from_float 0 0x3FE8000000000000 = .ok ⟨0xC000000000000000⟩ ∧
    floatVal 0x3FF8000000000000 = 3 / 2 ∧
    floatVal 0x3FE0000000000000 = 1 / 2 ∧
    floatVal 0xBFD0000000000000 = -(1 / 4) ∧
    floatVal 0x3FE8000000000000 = 3 / 4 := by
  refine ⟨by decide, by decide, by decide, by decide, ?_, ?_, ?_, ?_⟩ <;>
    norm_num [floatVal, signBit, expBits, mantissaBits]

/-- C7.  Raw round-trip is exact: for every pattern p,
Angle::from_repr(p).repr() == p. -/
theorem from_repr_repr_roundtrip (p : Nat) : (Angle.from_repr p).repr = p := rfl

set_option maxRecDepth 10000

/-- C3.  Sine of the all-zero pattern is the f64 bit pattern 0 (exactly
0.0); sine of the quarter-turn pattern 0x4000000000000000 takes the
sentinel branch (half_sin returns Output.One, no table access) and
produces the bit pattern of exactly 1.0; cosine of the all-zero pattern
is exactly 1.0.  The table does not matter on these paths, so the
theorem holds for an arbitrary table. -/
theorem sin_zero_and_quarter_exact (curve : List Nat) :
    Angle.sin curve (Angle.from_repr 0) = some 0 ∧
    floatVal 0 = 0 ∧
    half_sin curve 0x4000000000000000 = some Output.One ∧
    Angle.sin curve (Angle.from_repr 0x4000000000000000) = some 0x3FF0000000000000 ∧
    floatVal 0x3FF0000000000000 = 1 ∧
    Angle.cos curve (Angle.from_repr 0) = some 0x3FF0000000000000 := by
  refine ⟨rfl, by norm_num [floatVal, signBit, expBits, mantissaBits], rfl, rfl,
    by norm_num [floatVal, signBit, expBits, mantissaBits], rfl⟩

/-- C6.  Addition on the 64-bit word: wrapping_add is the sum modulo
2 ^ 64 (so an overflowing sum wraps by exactly 2 ^ 64, the encoding of
periodicity), and BaseRepr::saturating_add clamps the sum at
2 ^ 64 - 1. -/
theorem add_wrapping_and_saturating (a b : Nat) (ha : a < 2 ^ 64) (hb : b < 2 ^ 64) :
    wrapping_add a b = (a + b) % 2 ^ 64 ∧
    (2 ^ 64 ≤ a + b → wrapping_add a b = a + b - 2 ^ 64) ∧
    (BaseRepr.saturating_add (BaseRepr.new 0 a) (BaseRepr.new 0 b)).bits =
      min (a + b) (2 ^ 64 - 1) := by
  refine ⟨rfl, fun h => ?_, ?_⟩
  · unfold wrapping_add
    omega
  · unfold BaseRepr.saturating_add BaseRepr.new
    dsimp only
    split_ifs <;> omega

/-- Witness for C6 at the concrete operands 2 ^ 63 and 2 ^ 63. -/
theorem add_wrapping_and_saturating_witness :
    wrapping_add (2 ^ 63) (2 ^ 63) = (2 ^ 63 + 2 ^ 63) % 2 ^ 64 ∧
    (2 ^ 64 ≤ 2 ^ 63 + 2 ^ 63 → wrapping_add (2 ^ 63) (2 ^ 63) = 2 ^ 63 + 2 ^ 63 - 2 ^ 64) ∧
    (BaseRepr.saturating_add (BaseRepr.new 0 (2 ^ 63)) (BaseRepr.new 0 (2 ^ 63))).bits =
      min (2 ^ 63 + 2 ^ 63) (2 ^ 64 - 1) :=
  add_wrapping_and_saturating (2 ^ 63) (2 ^ 63) (by norm_num) (by norm_num)

/-- negFloat is an involution on u64 patterns: flipping the sign bit
twice restores the pattern. -/
theorem negFloat_negFloat (b : Nat) (hb : b < 2 ^ 64) : negFloat (negFloat b) = b := by
  unfold negFloat
  split_ifs <;> omega

/-- Every pattern produced by BaseRepr::as_float has a clear sign bit:
it is below 2 ^ 63. -/
theorem as_float_lt {O : Int} (a : BaseRepr O) : a.as_float < 2 ^ 63 := by
  unfold BaseRepr.as_float
  split
  · omega
  · dsimp only
    omega

/-- Every magnitude pattern built by SignedOutput::as_float under a
positive sign is below 2 ^ 63. -/
theorem as_float_pos_lt (v : Output) :
    SignedOutput.as_float ⟨.Positive, v⟩ < 2 ^ 63 := by
  cases v with
  | One =>
    show (0x3FF0000000000000 : Nat) < 2 ^ 63
    norm_num
  | Fraction r =>
    show r.as_float < 2 ^ 63
    exact as_float_lt r

/-- Flipping the sign of a SignedOutput negates the produced float
pattern. -/
theorem as_float_flip (v : Output) :
    SignedOutput.as_float ⟨.Negative, v⟩ =
      negFloat (SignedOutput.as_float ⟨.Positive, v⟩) := rfl

/-- half_sin only reads the low 63 bits of its argument. -/
theorem half_sin_congr (curve : List Nat) {a b : Nat} (h : a % 2 ^ 63 = b % 2 ^ 63) :
    half_sin curve a = half_sin curve b := by
  unfold half_sin
  rw [h]

/-- Unfolding equation for Angle::sin. -/
theorem angle_sin_eq (curve : List Nat) (p : Nat) :
    Angle.sin curve (Angle.from_repr p) =
      (Sliver.sin curve p).map SignedOutput.as_float := rfl

/-- Unfolding equation for Angle::cos: the quarter pattern is added to
the repr with wrapping_add before the shared sine pipeline runs. -/
theorem angle_cos_eq (curve : List Nat) (p : Nat) :
    Angle.cos curve (Angle.from_repr p) =
      (Sliver.sin curve ((p + 2 ^ 62) % 2 ^ 64)).map SignedOutput.as_float := rfl

/-- Unfolding equation for trig::sin: sign from bit 63, magnitude from
half_sin. -/
theorem sliver_sin_eq (curve : List Nat) (p : Nat) :
    Sliver.sin curve p =
      (half_sin curve p).map fun value =>
        ⟨Sign.from_bit (p / 2 ^ 63 % 2 = 1), value⟩ := rfl

/-- trig::sin on a pattern with clear bit 63 attaches a positive sign. -/
theorem sliver_sin_sign_pos (curve : List Nat) (p : Nat) (h : p / 2 ^ 63 % 2 = 0) :
    Sliver.sin curve p =
      (half_sin curve p).map fun value => ⟨Sign.Positive, value⟩ := by
  simp only [sliver_sin_eq, h]
  norm_num [Sign.from_bit]

/-- trig::sin on a pattern with set bit 63 attaches a negative sign. -/
theorem sliver_sin_sign_neg (curve : List Nat) (p : Nat) (h : p / 2 ^ 63 % 2 = 1) :
    Sliver.sin curve p =
      (half_sin curve p).map fun value => ⟨Sign.Negative, value⟩ := by
  simp only [sliver_sin_eq, h]
  norm_num [Sign.from_bit]

/-- C4.  For every 64-bit pattern x, the sine of the half-turn-offset
pattern is the floating-point negation (sign-bit flip) of the sine of x,
and the cosine of x is the sine of the quarter-turn-offset pattern;
both hold for an arbitrary table. -/
theorem sin_half_turn_negation_and_cos_shift (curve : List Nat) (x : Nat) (hx : x < 2 ^ 64) :
    Angle.sin curve (Angle.from_repr ((x + 2 ^ 63) % 2 ^ 64)) =
      (Angle.sin curve (Angle.from_repr x)).map negFloat ∧
    Angle.cos curve (Angle.from_repr x) =
      Angle.sin curve (Angle.from_repr ((x + 2 ^ 62) % 2 ^ 64)) := by
  constructor
  · have hmod : (x + 2 ^ 63) % 2 ^ 64 % 2 ^ 63 = x % 2 ^ 63 := by omega
    rw [angle_sin_eq, angle_sin_eq]
    rcases Nat.lt_or_ge x (2 ^ 63) with h | h
    · have h1 : (x + 2 ^ 63) % 2 ^ 64 / 2 ^ 63 % 2 = 1 := by omega
      have h0 : x / 2 ^ 63 % 2 = 0 := by omega
      rw [sliver_sin_sign_neg curve _ h1, sliver_sin_sign_pos curve _ h0,
        half_sin_congr curve hmod]
      cases hv : half_sin curve x with
      | none => rfl
      | some v => exact congrArg some (as_float_flip v)
    · have h1 : (x + 2 ^ 63) % 2 ^ 64 / 2 ^ 63 % 2 = 0 := by omega
      have h0 : x / 2 ^ 63 % 2 = 1 := by omega
      rw [sliver_sin_sign_pos curve _ h1, sliver_sin_sign_neg curve _ h0,
        half_sin_congr curve hmod]
      cases hv : half_sin curve x with
      | none => rfl
      | some v =>
        refine congrArg some ?_
        rw [as_float_flip,
          negFloat_negFloat _ (lt_trans (as_float_pos_lt v) (by norm_num))]
  · rw [angle_cos_eq, angle_sin_eq]

/-- Witness for C4 at the empty table and the pattern 5. -/
theorem sin_half_turn_negation_and_cos_shift_witness :
    Angle.sin [] (Angle.from_repr ((5 + 2 ^ 63) % 2 ^ 64)) =
      (Angle.sin [] (Angle.from_repr 5)).map negFloat ∧
    Angle.cos [] (Angle.from_repr 5) =
      Angle.sin [] (Angle.from_repr ((5 + 2 ^ 62) % 2 ^ 64)) :=
  sin_half_turn_negation_and_cos_shift [] 5 (by norm_num)

/-- subChecked succeeds exactly when no underflow occurs. -/
theorem subChecked_eq_some {a b : Nat} (h : b ≤ a) : subChecked a b = some (a - b) := by
  unfold subChecked
  rw [if_pos h]

/-- quarter_sin is total over a 256-entry table: the zone index and the
mirrored index both land inside the table and the u16 subtraction
0x100 - zone cannot underflow. -/
theorem quarter_sin_isSome (curve : List Nat) (h : curve.length = 256) (r : Nat) :
    (quarter_sin curve r).isSome = true := by
  unfold quarter_sin
  dsimp only
  by_cases h0 : r / 2 ^ 54 % 2 ^ 8 = 0
  · rw [if_pos h0]
    rfl
  · rw [if_neg h0]
    have h1 : r / 2 ^ 54 % 2 ^ 8 % 2 ^ 8 < curve.length := by omega
    have h2 : (0x100 - r / 2 ^ 54 % 2 ^ 8) % 2 ^ 8 < curve.length := by omega
    have e1 : sin_exact curve (r / 2 ^ 54 % 2 ^ 8 % 2 ^ 8) =
        some (BaseRepr.new 0 (curve.get ⟨r / 2 ^ 54 % 2 ^ 8 % 2 ^ 8, h1⟩)) := by
      unfold sin_exact
      rw [List.get?_eq_get h1]
      rfl
    have e2 : sin_exact curve ((0x100 - r / 2 ^ 54 % 2 ^ 8) % 2 ^ 8) =
        some (BaseRepr.new 0 (curve.get ⟨(0x100 - r / 2 ^ 54 % 2 ^ 8) % 2 ^ 8, h2⟩)) := by
      unfold sin_exact
      rw [List.get?_eq_get h2]
      rfl
    rw [e1, subChecked_eq_some (by omega : r / 2 ^ 54 % 2 ^ 8 ≤ 0x100)]
    dsimp only
    rw [e2]
    rfl

/-- half_sin is total over a 256-entry table: the reflection
half - repr cannot underflow because the magnitude is masked to 63
bits. -/
theorem half_sin_isSome (curve : List Nat) (h : curve.length = 256) (r : Nat) :
    (half_sin curve r).isSome = true := by
  unfold half_sin
  dsimp only
  split_ifs with hlt heq
  · obtain ⟨v, hv⟩ := Option.isSome_iff_exists.mp (quarter_sin_isSome curve h (r % 2 ^ 63))
    rw [hv]
    rfl
  · rfl
  · rw [subChecked_eq_some (by omega : r % 2 ^ 63 ≤ 2 ^ 63)]
    dsimp only
    obtain ⟨v, hv⟩ :=
      Option.isSome_iff_exists.mp (quarter_sin_isSome curve h (2 ^ 63 - r % 2 ^ 63))
    rw [hv]
    rfl

/-- C9.  The sine evaluator is total: with the 256-entry table, every
64-bit input pattern produces a result, with no out-of-bounds table
access and no subtraction underflow anywhere in the pipeline. -/
theorem sin_total_no_panic (curve : List Nat) (x : Nat)
    (h : curve.length = 256) (hx : x < 2 ^ 64) :
    (Sliver.sin curve x).isSome = true ∧
    (Angle.sin curve (Angle.from_repr x)).isSome = true := by
  obtain ⟨v, hv⟩ := Option.isSome_iff_exists.mp (half_sin_isSome curve h x)
  constructor
  · rw [sliver_sin_eq, hv]
    rfl
  · rw [angle_sin_eq, sliver_sin_eq, hv]
    rfl

/-- Witness for C9 at a concrete 256-entry table and the pattern
0xFEDCBA9876543210. -/
theorem sin_total_no_panic_witness :
    (Sliver.sin (List.replicate 256 0) 0xFEDCBA9876543210).isSome = true ∧
    (Angle.sin (List.replicate 256 0) (Angle.from_repr 0xFEDCBA9876543210)).isSome = true :=
  sin_total_no_panic (List.replicate 256 0) 0xFEDCBA9876543210
    (by simp) (by norm_num)

/-- mul0 reduces mod 2 ^ 64, so its bits fit in a u64. -/
theorem mul0_bits_lt {O : Int} (a : BaseRepr O) (b : BaseRepr 0) :
    (a.mul0 b).bits < 2 ^ 64 := by
  unfold BaseRepr.mul0
  exact Nat.mod_lt _ (by norm_num)

/-- saturating_add clamps at 2 ^ 64 - 1, so its bits fit in a u64. -/
theorem saturating_add_bits_lt {O : Int} (a b : BaseRepr O) :
    (a.saturating_add b).bits < 2 ^ 64 := by
  unfold BaseRepr.saturating_add
  dsimp only
  split_ifs <;> omega

/-- Every fraction quarter_sin can return fits in a u64: the degenerate
branch is a mod-2 ^ 64 product and the table branch ends in a
saturating addition. -/
theorem quarter_sin_bits_lt (curve : List Nat) (r : Nat) (v : BaseRepr 0)
    (hv : quarter_sin curve r = some v) : v.bits < 2 ^ 64 := by
  unfold quarter_sin at hv
  dsimp only at hv
  split_ifs at hv with h0
  · cases hv
    exact mul0_bits_lt TAU _
  · split at hv
    · cases hv
    · split at hv
      · cases hv
      · split at hv
        · cases hv
        · cases hv
          exact saturating_add_bits_lt _ _

/-- floatVal on a normal pattern assembled from a mantissa below 2 ^ 52
and an exponent field e with 1 <= e <= 2046. -/
theorem floatVal_of_normal (m e : Nat) (hm : m < 2 ^ 52) (he1 : 1 ≤ e) (he2 : e ≤ 2046) :
    floatVal (m + e * 2 ^ 52) =
      ((2 ^ 52 + m : ℕ) : ℚ) * (2 : ℚ) ^ ((e : ℤ) - 1075) := by
  have h1 : signBit (m + e * 2 ^ 52) = false := by
    unfold signBit
    exact decide_eq_false (by omega)
  have h2 : expBits (m + e * 2 ^ 52) = e := by
    unfold expBits
    omega
  have h3 : mantissaBits (m + e * 2 ^ 52) = m := by
    unfold mantissaBits
    omega
  unfold floatVal
  rw [h1, h2, h3, if_neg (by omega : ¬ e = 0)]
  norm_num

/-- A normal pattern whose exponent field stays at or below 1022 (an
unbiased exponent of -1 or less) denotes a value in the interval
strictly below 1. -/
theorem floatVal_normal_lt_one (m e : Nat) (hm : m < 2 ^ 52) (he1 : 1 ≤ e) (he2 : e ≤ 1022) :
    0 ≤ floatVal (m + e * 2 ^ 52) ∧ floatVal (m + e * 2 ^ 52) < 1 := by
  rw [floatVal_of_normal m e hm he1 (by omega)]
  constructor
  · positivity
  · have hc : ((2 ^ 52 + m : ℕ) : ℚ) < 2 ^ 53 := by
      have : (2 ^ 52 + m : ℕ) < 2 ^ 53 := by omega
      exact_mod_cast this
    have hz : (2 : ℚ) ^ ((e : ℤ) - 1075) ≤ (2 : ℚ) ^ (-53 : ℤ) :=
      zpow_le_zpow_right₀ (by norm_num) (by omega)
    have hzpos : (0 : ℚ) < (2 : ℚ) ^ ((e : ℤ) - 1075) := by positivity
    calc ((2 ^ 52 + m : ℕ) : ℚ) * (2 : ℚ) ^ ((e : ℤ) - 1075)
        < 2 ^ 53 * (2 : ℚ) ^ ((e : ℤ) - 1075) := mul_lt_mul_of_pos_right hc hzpos
      _ ≤ 2 ^ 53 * (2 : ℚ) ^ (-53 : ℤ) := mul_le_mul_of_nonneg_left hz (by positivity)
      _ = 1 := by
          rw [show ((2 : ℚ) ^ (-53 : ℤ)) = ((2 : ℚ) ^ (53 : ℕ))⁻¹ by
            rw [zpow_neg]
            norm_num]
          norm_num

/-- Every pattern BaseRepr::as_float produces at offset 0 denotes a
rational in [0, 1): the biased exponent it stores is at most 0x3FE. -/
theorem floatVal_as_float_bounds (r : BaseRepr 0) :
    0 ≤ floatVal r.as_float ∧ floatVal r.as_float < 1 := by
  unfold BaseRepr.as_float FLOAT_ZERO_EXP
  split
  · constructor <;> norm_num [floatVal, signBit, expBits, mantissaBits]
  · dsimp only
    refine floatVal_normal_lt_one _ _ (Nat.mod_lt _ (by norm_num)) ?_ ?_ <;> omega

/-- Negating a pattern with a clear sign bit negates its rational
value. -/
theorem floatVal_negFloat (b : Nat) (hb : b < 2 ^ 63) :
    floatVal (negFloat b) = -floatVal b := by
  unfold negFloat
  rw [if_pos hb]
  have h1 : (b + 2 ^ 63) / 2 ^ 63 % 2 = 1 := by omega
  have h0 : b / 2 ^ 63 % 2 = 0 := by omega
  have h2 : (b + 2 ^ 63) / 2 ^ 52 % 2 ^ 11 = b / 2 ^ 52 % 2 ^ 11 := by omega
  have h3 : (b + 2 ^ 63) % 2 ^ 52 = b % 2 ^ 52 := by omega
  unfold floatVal signBit expBits mantissaBits
  rw [h1, h0, h2, h3]
  norm_num
  split_ifs <;> ring

/-- The float pattern of any SignedOutput denotes a rational of
magnitude at most 1: the magnitude is exactly 1 only through the
sentinel One, and every fixed-point fraction converts strictly below
1. -/
theorem signed_as_float_bound (s : SignedOutput) : |floatVal s.as_float| ≤ 1 := by
  obtain ⟨sign, value⟩ := s
  have hpos : 0 ≤ floatVal (SignedOutput.as_float ⟨.Positive, value⟩) ∧
      floatVal (SignedOutput.as_float ⟨.Positive, value⟩) ≤ 1 := by
    cases value with
    | One =>
      constructor <;>
        norm_num [SignedOutput.as_float, floatVal, signBit, expBits, mantissaBits]
    | Fraction r =>
      obtain ⟨hr0, hr1⟩ := floatVal_as_float_bounds r
      exact ⟨hr0, le_of_lt hr1⟩
  cases sign with
  | Positive =>
    rw [abs_le]
    exact ⟨by linarith [hpos.1], hpos.2⟩
  | Negative =>
    rw [as_float_flip, floatVal_negFloat _ (as_float_pos_lt value), abs_neg, abs_le]
    exact ⟨by linarith [hpos.1], hpos.2⟩

/-- C10.  Bounded output: every float pattern Angle::sin or Angle::cos
produces denotes a rational of magnitude at most 1, for every 64-bit
input pattern and an arbitrary table. -/
theorem sin_cos_bounded (curve : List Nat) (x : Nat) (hx : x < 2 ^ 64) :
    (∀ out, Angle.sin curve (Angle.from_repr x) = some out → |floatVal out| ≤ 1) ∧
    (∀ out, Angle.cos curve (Angle.from_repr x) = some out → |floatVal out| ≤ 1) := by
  constructor
  · intro out hout
    rw [angle_sin_eq] at hout
    cases hs : Sliver.sin curve x with
    | none => rw [hs] at hout; cases hout
    | some s =>
      rw [hs] at hout
      obtain rfl : s.as_float = out := by injection hout
      exact signed_as_float_bound s
  · intro out hout
    rw [angle_cos_eq] at hout
    cases hs : Sliver.sin curve ((x + 2 ^ 62) % 2 ^ 64) with
    | none => rw [hs] at hout; cases hout
    | some s =>
      rw [hs] at hout
      obtain rfl : s.as_float = out := by injection hout
      exact signed_as_float_bound s

/-- Witness for C10 at the empty table and the quarter-turn pattern,
where the sine is exactly 1. -/
theorem sin_cos_bounded_witness : |floatVal 0x3FF0000000000000| ≤ 1 :=
  (sin_cos_bounded [] (2 ^ 62) (by norm_num)).1 0x3FF0000000000000 (by decide)

/-- C8.  The half-rotation pattern converts to exactly 180 degrees, and
its radians conversion is exactly 0x400921FB54442D18, the IEEE-754
double-precision value of pi (the value of core::f64::consts::PI), whose
rational value is 0x1921FB54442D18 / 2 ^ 51. -/
theorem half_rotation_in_degrees_and_radians :
    Angle.as_degrees (Angle.from_repr 0x8000000000000000) = 0x4066800000000000 ∧
    floatVal 0x4066800000000000 = 180 ∧
    Angle.as_radians (Angle.from_repr 0x8000000000000000) = 0x400921FB54442D18 ∧
    floatVal 0x400921FB54442D18 = (0x1921FB54442D18 : ℚ) / 2 ^ 51 := by
  refine ⟨by decide, ?_, by decide, ?_⟩ <;>
    norm_num [floatVal, signBit, expBits, mantissaBits]

end Sliver
